import Mathlib

/-!
Verification development for the EA Global meeting matcher
(`utils.py` and `app.py`): a shallow embedding of the dual-direction
batched scoring-and-ranking pipeline and the report reconciler, with
theorems settling the specification's claims.

Conventions of the embedding:
* Python `dict` objects are modelled as association lists
  (`List (κ × α)`) with insertion-order semantics: assigning to an
  existing key replaces its value in place, assigning a fresh key
  appends (`dictInsert`).  Lookup prefers the latest assignment
  (`dictGet`), which for the unique-key lists built by `dictInsert`
  agrees with a plain first lookup.
* The external scoring service is an oracle: for each attempt number it
  either returns a parsed JSON score object (`.ok`, a string-keyed
  integer map, as produced by `json.loads`) or raises (`.error`, which
  uniformly stands for an empty response, a JSON decode error or a
  transport error — the code catches all of these in one `except`).
* Timing-relevant effects are recorded as an event trace (`Ev`):
  `Ev.call` is an outbound request to the external service, `Ev.sleep d`
  is `await asyncio.sleep(d)`.
-/

/-- Events a pipeline task can perform, for timing-sensitive claims:
an outbound service call, or a backoff sleep of `d` seconds. -/
inductive Ev where
  | call : Ev
  | sleep : Nat → Ev
deriving Repr, DecidableEq

/-- Distinguished failure conditions of the pipeline, mirroring the
distinct `ValueError` messages raised in `utils.py`. -/
inductive PipeError where
  /-- `Batch {batch_num} failed after {attempts} attempts` (utils.py:315). -/
  | batchFailed (batch_num : Nat) (attempts : Nat)
  /-- `No profiles scored {min_score}+. Try lowering the threshold.` (utils.py:351). -/
  | noProfilesAboveThreshold (min_score : Int)
  /-- the final recommendation call exhausted its retries (utils.py:398). -/
  | finalCallFailed
deriving Repr, DecidableEq

/-- Python dict lookup, preferring the most recent assignment
(models both `dict.get` and `json.loads`'s last-duplicate-wins keys). -/
def dictGet {κ α : Type} [DecidableEq κ] : List (κ × α) → κ → Option α
  | [], _ => none
  | p :: ps, k =>
    match dictGet ps k with
    | some v => some v
    | none => if p.1 = k then some p.2 else none

/-- Python dict assignment `d[k] = v`: replace in place if the key is
present, append otherwise. -/
def dictInsert {κ α : Type} [DecidableEq κ] (d : List (κ × α)) (k : κ) (v : α) :
    List (κ × α) :=
  if d.any (fun p => p.1 = k) then
    d.map (fun p => if p.1 = k then (k, v) else p)
  else
    d ++ [(k, v)]

/-- Python `d.update(new)`: assign every pair of `new` into `d` in order. -/
def dictUpdate {κ α : Type} [DecidableEq κ] (d new : List (κ × α)) : List (κ × α) :=
  new.foldl (fun d p => dictInsert d p.1 p.2) d

/-- utils.py:259-262 — drop the requester's own profile index:
`if user_idx is not None and user_idx in indices: indices = [i for i in indices if i != user_idx]`. -/
def excludeUser (indices : List Nat) (user_idx : Option Nat) : List Nat :=
  match user_idx with
  | none => indices
  | some u => if u ∈ indices then indices.filter (fun i => i != u) else indices

/-- utils.py:267-269 — `for i in range(0, len(indices), chunk_size):
batches.append(indices[i:i + chunk_size])`.  A `chunk_size` of `0` makes
`range` raise in the source, so that case is unreachable; we return `[]`
there to stay total. -/
def make_batches (indices : List Nat) (chunk_size : Nat) : List (List Nat) :=
  if chunk_size = 0 then []
  else if h : indices = [] then []
  else indices.take chunk_size :: make_batches (indices.drop chunk_size) chunk_size
termination_by indices.length
decreasing_by
  have hpos : 0 < indices.length := List.length_pos.mpr h
  simp only [List.length_drop]
  omega

/-- utils.py:287 and utils.py:373 — `backoff_delays = [5, 10, 20]`. -/
def backoff_delays : List Nat := [5, 10, 20]

/-- utils.py:301-307 — map the 1-based profile ordinals of one scored
batch back to DataFrame indices:
`for j, idx in enumerate(batch_indices, 1): result[idx] = scores.get(str(j), scores.get(j, 0))`.
`json.loads` only ever produces string keys, so the integer-key fallback
`scores.get(j, 0)` always yields the default `0`. -/
def score_one_batch_result (scores : List (String × Int)) (batch_indices : List Nat) :
    List (Nat × Int) :=
  dictUpdate []
    ((batch_indices.enumFrom 1).map
      (fun p => (p.2, (dictGet scores (toString p.1)).getD 0)))

/-- utils.py:288-315 — the retry loop `for attempt in range(3)` of
`score_one_batch`, iterating over the list of remaining attempt numbers.
Each iteration issues one service call; a `.ok` outcome returns the
parsed result, an exception sleeps `backoff_delays[attempt]` and retries
while `attempt < 2`, and raises `Batch ... failed after attempt+1
attempts` otherwise.  The `[]` case is unreachable for `range 3` because
the final iteration always returns or raises. -/
def attempts_loop (oracle : Nat → Except Unit (List (String × Int)))
    (batch_indices : List Nat) (batch_num : Nat) :
    List Nat → List Ev × Except PipeError (List (Nat × Int))
  | [] => ([], .error (.batchFailed batch_num 0))
  | attempt :: rest =>
    match oracle attempt with
    | .ok scores => ([Ev.call], .ok (score_one_batch_result scores batch_indices))
    | .error _ =>
      if attempt < 2 then
        let r := attempts_loop oracle batch_indices batch_num rest
        (Ev.call :: Ev.sleep (backoff_delays.getD attempt 0) :: r.1, r.2)
      else
        ([Ev.call], .error (.batchFailed batch_num (attempt + 1)))

/-- utils.py:274-315 — `score_one_batch`, as a function of the
per-attempt service oracle; returns the event trace (calls and backoff
sleeps) together with either the partial score map or the batch-failure
error. -/
def score_one_batch (oracle : Nat → Except Unit (List (String × Int)))
    (batch_indices : List Nat) (batch_num : Nat) :
    List Ev × Except PipeError (List (Nat × Int)) :=
  attempts_loop oracle batch_indices batch_num (List.range 3)

/-- utils.py:318-326 — collect batch results in completion order.
`order` is the completion order delivered by `asyncio.as_completed`,
as a list of 0-based batch positions; `oracle pos` is the service
oracle seen by the batch at position `pos`.  The first completed task
that exhausted its retries raises out of the `await` and aborts the
collection. -/
def run_scoring (batches : List (List Nat))
    (oracle : Nat → Nat → Except Unit (List (String × Int))) :
    List Nat → Except PipeError (List (List (Nat × Int)))
  | [] => .ok []
  | pos :: rest =>
    match (score_one_batch (oracle pos) (batches.getD pos []) (pos + 1)).2 with
    | .error e => .error e
    | .ok r =>
      match run_scoring batches oracle rest with
      | .error e => .error e
      | .ok rs => .ok (r :: rs)

/-- utils.py:332-334 — `all_scores = {}` then
`for batch_scores, _ in results: all_scores.update(batch_scores)`,
merging the per-batch partial maps in completion order. -/
def mergeResults (results : List (List (Nat × Int))) : List (Nat × Int) :=
  results.foldl dictUpdate []

/-- Stable insertion into a descending-by-score list: the new pair goes
before the first element whose score is not larger, so earlier list
elements with equal scores stay in front. -/
def insertDesc (p : Nat × Int) : List (Nat × Int) → List (Nat × Int)
  | [] => [p]
  | q :: qs => if p.2 < q.2 then q :: insertDesc p qs else p :: q :: qs

/-- Python's `sorted(items, key=lambda x: x[1], reverse=True)`: a stable
sort, descending by score (CPython's sort is stable, and `reverse=True`
preserves the original relative order of equal keys). -/
def sortDesc (l : List (Nat × Int)) : List (Nat × Int) :=
  l.foldr insertDesc []

/-- utils.py:343-347 — threshold filtering:
`top_items = [(idx, score) for idx, score in sorted(all_scores.items(), key=lambda x: x[1], reverse=True) if score >= min_score]`. -/
def top_items (all_scores : List (Nat × Int)) (min_score : Int) : List (Nat × Int) :=
  (sortDesc all_scores).filter (fun p => min_score ≤ p.2)

/-- utils.py:374-398 — the final-recommendation retry loop, identical in
shape to the batch loop (the source duplicates it); `.ok text` is a
successful non-empty response, `.error` any caught exception. -/
def final_attempts_loop (oracle : Nat → Except Unit String) :
    List Nat → List Ev × Except PipeError String
  | [] => ([], .error .finalCallFailed)
  | attempt :: rest =>
    match oracle attempt with
    | .ok text => ([Ev.call], .ok text)
    | .error _ =>
      if attempt < 2 then
        let r := final_attempts_loop oracle rest
        (Ev.call :: Ev.sleep (backoff_delays.getD attempt 0) :: r.1, r.2)
      else
        ([Ev.call], .error .finalCallFailed)

/-- utils.py:373-398 — the final recommendation call with its retries. -/
def final_call (oracle : Nat → Except Unit String) :
    List Ev × Except PipeError String :=
  final_attempts_loop oracle (List.range 3)

/-- utils.py:235-398 — `run_matching_pipeline` for one direction, as a
function of the roster indices, `chunk_size`, `min_score`, the
requester's own index, the per-batch scoring oracle, the batch
completion order, and the final-call oracle.  Returns the report text
and the merged score map, or the first propagated failure. -/
def run_matching_pipeline (indices : List Nat) (chunk_size : Nat) (min_score : Int)
    (user_idx : Option Nat)
    (oracle : Nat → Nat → Except Unit (List (String × Int)))
    (order : List Nat) (finalOracle : Nat → Except Unit String) :
    Except PipeError (String × List (Nat × Int)) :=
  let indices2 := excludeUser indices user_idx
  let batches := make_batches indices2 chunk_size
  match run_scoring batches oracle order with
  | .error e => .error e
  | .ok results =>
    let all_scores := mergeResults results
    let tops := top_items all_scores min_score
    if tops.isEmpty then .error (.noProfilesAboveThreshold min_score)
    else
      match (final_call finalOracle).2 with
      | .error e => .error e
      | .ok text => .ok (text, all_scores)


/-! ### Lemmas about the Batch Partitioner -/

theorem make_batches_flatten (indices : List Nat) (chunk_size : Nat) (hB : 0 < chunk_size) :
    (make_batches indices chunk_size).flatten = indices := by
  induction indices, chunk_size using make_batches.induct with
  | case1 indices => omega
  | case2 cs h1 => simp [make_batches, h1]
  | case3 indices cs h1 h2 ih =>
    rw [make_batches]
    simp only [if_neg h1, dif_neg h2, List.flatten_cons]
    rw [ih hB, List.take_append_drop]

theorem make_batches_length (indices : List Nat) (chunk_size : Nat) (hB : 0 < chunk_size) :
    (make_batches indices chunk_size).length
      = (indices.length + chunk_size - 1) / chunk_size := by
  induction indices, chunk_size using make_batches.induct with
  | case1 indices => omega
  | case2 cs h1 =>
    rw [make_batches]
    simp only [if_neg h1, dif_pos rfl, List.length_nil, Nat.zero_add]
    exact (Nat.div_eq_of_lt (by omega)).symm
  | case3 indices cs h1 h2 ih =>
    rw [make_batches]
    simp only [if_neg h1, dif_neg h2, List.length_cons]
    rw [ih hB]
    have hlen : 0 < indices.length := List.length_pos.mpr h2
    clear ih
    simp only [List.length_drop]
    rcases Nat.lt_or_ge (indices.length) cs with hlt | hge
    · have hz : indices.length - cs = 0 := by omega
      rw [hz]
      have h0 : (0 + cs - 1) / cs = 0 := Nat.div_eq_of_lt (by omega)
      have h1' : (indices.length + cs - 1) / cs = 1 :=
        Nat.div_eq_of_lt_le (by omega) (by omega)
      omega
    · have e1 : indices.length - cs + cs - 1 = indices.length - 1 := by omega
      have e2 : indices.length + cs - 1 = indices.length - 1 + cs := by omega
      rw [e1, e2, Nat.add_div_right _ hB]

theorem filter_bne_of_not_mem {u : Nat} : ∀ {l : List Nat}, u ∉ l →
    l.filter (fun i => i != u) = l := by
  intro l hu
  induction l with
  | nil => rfl
  | cons a t ih =>
    have ha : a ≠ u := fun h => hu (h ▸ List.mem_cons_self a t)
    have ht : u ∉ t := fun h => hu (List.mem_cons_of_mem a h)
    simp [List.filter_cons, ha, ih ht]

theorem filter_bne_length {u : Nat} : ∀ {l : List Nat}, l.Nodup → u ∈ l →
    (l.filter (fun i => i != u)).length + 1 = l.length := by
  intro l hnd hu
  induction l with
  | nil => cases hu
  | cons a t ih =>
    rcases List.mem_cons.mp hu with rfl | hut
    · have hut : u ∉ t := (List.nodup_cons.mp hnd).1
      simp [List.filter_cons, filter_bne_of_not_mem hut]
    · have ha : a ≠ u := fun h => (List.nodup_cons.mp hnd).1 (h ▸ hut)
      have hrec := ih (List.nodup_cons.mp hnd).2 hut
      simp only [List.filter_cons, List.length_cons]
      simp only [bne_iff_ne, ne_eq]
      rw [if_pos ha]
      simp only [List.length_cons]
      omega

theorem excludeUser_mem (indices : List Nat) (user_idx : Option Nat) (i : Nat) :
    i ∈ excludeUser indices user_idx ↔ (i ∈ indices ∧ user_idx ≠ some i) := by
  cases user_idx with
  | none => simp [excludeUser]
  | some u =>
    by_cases hu : u ∈ indices
    · simp only [excludeUser, if_pos hu, List.mem_filter, bne_iff_ne, ne_eq,
        Option.some.injEq]
      constructor
      · rintro ⟨h1, h2⟩
        exact ⟨h1, fun h => h2 h.symm⟩
      · rintro ⟨h1, h2⟩
        exact ⟨h1, fun h => h2 h.symm⟩
    · simp only [excludeUser, if_neg hu, ne_eq, Option.some.injEq]
      constructor
      · intro h
        exact ⟨h, fun he => hu (he ▸ h)⟩
      · exact fun h => h.1

theorem excludeUser_nodup (indices : List Nat) (user_idx : Option Nat)
    (h : indices.Nodup) : (excludeUser indices user_idx).Nodup := by
  cases user_idx with
  | none => exact h
  | some u =>
    by_cases hu : u ∈ indices
    · rw [excludeUser, if_pos hu]
      exact h.filter _
    · rw [excludeUser, if_neg hu]
      exact h

/-! ### Claim C2 — batch partitioning -/

/-- C2: for every list of (distinct) candidate indices, every batch size
`B > 0` and every optional requester index, partitioning produces
`ceil(N'/B)` batches (`N'` = `N` minus one exactly when the requester
index is present) that are consecutive slices in input order (their
concatenation is the requester-free index list), whose union is the
input set minus the requester index, with no index duplicated across
batches and the requester's own index appearing in no batch.
Candidate indices are DataFrame row labels and hence pairwise distinct,
which the `Nodup` hypothesis records. -/
theorem C2_partitioning (indices : List Nat) (B : Nat) (user_idx : Option Nat)
    (hB : 0 < B) (hnd : indices.Nodup) :
    (make_batches (excludeUser indices user_idx) B).length
        = ((excludeUser indices user_idx).length + B - 1) / B
    ∧ (make_batches (excludeUser indices user_idx) B).flatten
        = excludeUser indices user_idx
    ∧ (∀ i, i ∈ (make_batches (excludeUser indices user_idx) B).flatten
          ↔ (i ∈ indices ∧ user_idx ≠ some i))
    ∧ (make_batches (excludeUser indices user_idx) B).flatten.Nodup
    ∧ (∀ b ∈ make_batches (excludeUser indices user_idx) B,
          ∀ u, user_idx = some u → u ∉ b)
    ∧ (user_idx = none → (excludeUser indices user_idx).length = indices.length)
    ∧ (∀ u, user_idx = some u → u ∈ indices →
          (excludeUser indices user_idx).length + 1 = indices.length)
    ∧ (∀ u, user_idx = some u → u ∉ indices →
          (excludeUser indices user_idx).length = indices.length) := by
  have hflat := make_batches_flatten (excludeUser indices user_idx) B hB
  have hlen := make_batches_length (excludeUser indices user_idx) B hB
  have hmem := excludeUser_mem indices user_idx
  have hnd' := excludeUser_nodup indices user_idx hnd
  refine ⟨hlen, hflat, ?_, ?_, ?_, ?_, ?_, ?_⟩
  · intro i
    rw [hflat]
    exact hmem i
  · rw [hflat]
    exact hnd'
  · intro b hb u hu hub
    have : u ∈ (make_batches (excludeUser indices user_idx) B).flatten :=
      List.mem_flatten.mpr ⟨b, hb, hub⟩
    rw [hflat] at this
    exact ((hmem u).mp this).2 (hu ▸ rfl)
  · intro h
    rw [h]
    rfl
  · intro u hu hui
    rw [hu]
    rw [excludeUser, if_pos hui]
    exact filter_bne_length hnd hui
  · intro u hu hui
    rw [hu]
    rw [excludeUser, if_neg hui]

/-- C2 witness: the theorem applied to the roster `[0,1,2,3,4]`, batch
size `2` and requester index `2`, together with the concrete batches. -/
theorem C2_partitioning_witness :
    make_batches (excludeUser [0, 1, 2, 3, 4] (some 2)) 2 = [[0, 1], [3, 4]]
    ∧ (make_batches (excludeUser [0, 1, 2, 3, 4] (some 2)) 2).flatten
        = excludeUser [0, 1, 2, 3, 4] (some 2) :=
  ⟨by simp [excludeUser, make_batches],
   (C2_partitioning [0, 1, 2, 3, 4] 2 (some 2) (by decide) (by decide)).2.1⟩

/-! ### Lemmas about threshold filtering (utils.py:343-347) -/

theorem insertDesc_perm (p : Nat × Int) (l : List (Nat × Int)) :
    (insertDesc p l).Perm (p :: l) := by
  induction l with
  | nil => simp [insertDesc]
  | cons q qs ih =>
    rw [insertDesc]
    by_cases h : p.2 < q.2
    · rw [if_pos h]
      exact (ih.cons q).trans (List.Perm.swap p q qs)
    · rw [if_neg h]

theorem sortDesc_perm (l : List (Nat × Int)) : (sortDesc l).Perm l := by
  induction l with
  | nil => exact List.Perm.refl _
  | cons p ps ih => exact (insertDesc_perm p (sortDesc ps)).trans (ih.cons p)

theorem insertDesc_pairwise (p : Nat × Int) (l : List (Nat × Int))
    (h : l.Pairwise (fun a b => b.2 ≤ a.2)) :
    (insertDesc p l).Pairwise (fun a b => b.2 ≤ a.2) := by
  induction l with
  | nil => simp [insertDesc]
  | cons q qs ih =>
    rw [insertDesc]
    rcases List.pairwise_cons.mp h with ⟨hq, hqs⟩
    by_cases hlt : p.2 < q.2
    · rw [if_pos hlt]
      refine List.pairwise_cons.mpr ⟨?_, ih hqs⟩
      intro x hx
      rcases List.mem_cons.mp ((insertDesc_perm p qs).mem_iff.mp hx) with rfl | hxqs
      · exact le_of_lt hlt
      · exact hq x hxqs
    · rw [if_neg hlt]
      refine List.pairwise_cons.mpr ⟨?_, h⟩
      intro x hx
      rcases List.mem_cons.mp hx with rfl | hxqs
      · exact le_of_not_lt hlt
      · exact le_trans (hq x hxqs) (le_of_not_lt hlt)

theorem sortDesc_pairwise (l : List (Nat × Int)) :
    (sortDesc l).Pairwise (fun a b => b.2 ≤ a.2) := by
  induction l with
  | nil => simp [sortDesc]
  | cons p ps ih => exact insertDesc_pairwise p (sortDesc ps) ih

theorem top_items_perm (m : List (Nat × Int)) (s : Int) :
    (top_items m s).Perm (m.filter (fun p => s ≤ p.2)) :=
  (sortDesc_perm m).filter _

theorem top_items_pairwise (m : List (Nat × Int)) (s : Int) :
    (top_items m s).Pairwise (fun a b => b.2 ≤ a.2) :=
  (sortDesc_pairwise m).sublist (List.filter_sublist _)


/-! ### Claim C5 — threshold filtering -/

/-- C5: threshold filtering of a merged score map keeps exactly the
entries whose score is at least `min_score` (as a permutation-exact
multiset identity plus both membership directions), sorted descending by
score; on the concrete scores `{0:9, 1:7, 2:8, 3:10}` with threshold `8`
it returns exactly `[(3,10), (0,9), (2,8)]`. -/
theorem C5_threshold_filtering :
    (∀ (m : List (Nat × Int)) (s : Int),
      (top_items m s).Perm (m.filter (fun p => s ≤ p.2))
      ∧ (top_items m s).Pairwise (fun a b => b.2 ≤ a.2)
      ∧ (∀ p ∈ top_items m s, p ∈ m ∧ s ≤ p.2)
      ∧ (∀ p ∈ m, s ≤ p.2 → p ∈ top_items m s))
    ∧ top_items [(0, 9), (1, 7), (2, 8), (3, 10)] 8 = [(3, 10), (0, 9), (2, 8)] := by
  refine ⟨fun m s => ⟨top_items_perm m s, top_items_pairwise m s, ?_, ?_⟩, by decide⟩
  · intro p hp
    have := (top_items_perm m s).mem_iff.mp hp
    rcases List.mem_filter.mp this with ⟨hm, hs⟩
    exact ⟨hm, by simpa using hs⟩
  · intro p hm hs
    refine (top_items_perm m s).mem_iff.mpr (List.mem_filter.mpr ⟨hm, ?_⟩)
    simpa using hs

/-! ### Claims C4, C6, C8 — retries, thresholds and failure propagation -/

/-- Number of outbound service calls in an event trace. -/
def callCount (evs : List Ev) : Nat :=
  (evs.filter (fun e => e == Ev.call)).length

theorem range_three : List.range 3 = [0, 1, 2] := rfl

/-- C4: the Batch Scorer makes at most 3 attempts (3 outbound calls);
each failure that is retried sleeps the attempt-indexed delay from
`[5, 10, 20]` (so 5s after the first failure, 10s after the second);
two failures followed by a success return the parsed result, and a run
whose batches all succeed is not marked failed; a third failure produces
the batch-failure error, which run_scoring and the whole direction
pipeline propagate (aborting the run) rather than dropping the batch. -/
theorem C4_batch_retries :
    (∀ oracle batch_indices batch_num,
      callCount (score_one_batch oracle batch_indices batch_num).1 ≤ 3)
    ∧ (∀ oracle batch_indices batch_num scores,
        oracle 0 = .error () → oracle 1 = .error () → oracle 2 = .ok scores →
        score_one_batch oracle batch_indices batch_num
          = ([Ev.call, Ev.sleep 5, Ev.call, Ev.sleep 10, Ev.call],
             .ok (score_one_batch_result scores batch_indices)))
    ∧ (∀ oracle batch_indices batch_num,
        oracle 0 = .error () → oracle 1 = .error () → oracle 2 = .error () →
        score_one_batch oracle batch_indices batch_num
          = ([Ev.call, Ev.sleep 5, Ev.call, Ev.sleep 10, Ev.call],
             .error (.batchFailed batch_num 3)))
    ∧ (∀ batches oracle order,
        (∀ pos ∈ order,
          ((score_one_batch (oracle pos) (batches.getD pos []) (pos + 1)).2).isOk = true) →
        (run_scoring batches oracle order).isOk = true)
    ∧ (∀ batches oracle order pos, pos ∈ order →
        ((score_one_batch (oracle pos) (batches.getD pos []) (pos + 1)).2).isOk = false →
        (run_scoring batches oracle order).isOk = false)
    ∧ (∀ indices chunk_size min_score user_idx oracle order finalOracle e,
        run_scoring (make_batches (excludeUser indices user_idx) chunk_size) oracle order
          = .error e →
        run_matching_pipeline indices chunk_size min_score user_idx oracle order finalOracle
          = .error e) := by
  refine ⟨?_, ?_, ?_, ?_, ?_, ?_⟩
  · intro oracle b n
    rw [score_one_batch, range_three]
    rcases h0 : oracle 0 with u0 | s0
    · rcases h1 : oracle 1 with u1 | s1
      · rcases h2 : oracle 2 with u2 | s2
        · simp [attempts_loop, h0, h1, h2, callCount, backoff_delays]
        · simp [attempts_loop, h0, h1, h2, callCount, backoff_delays]
      · simp [attempts_loop, h0, h1, callCount, backoff_delays]
    · simp [attempts_loop, h0, callCount]
  · intro oracle b n scores h0 h1 h2
    rw [score_one_batch, range_three]
    simp [attempts_loop, h0, h1, h2, backoff_delays]
  · intro oracle b n h0 h1 h2
    rw [score_one_batch, range_three]
    simp [attempts_loop, h0, h1, h2, backoff_delays]
  · intro batches oracle order hall
    induction order with
    | nil => rfl
    | cons pos rest ih =>
      have hpos := hall pos (List.mem_cons_self pos rest)
      rw [run_scoring]
      rcases hr : (score_one_batch (oracle pos) (batches.getD pos []) (pos + 1)).2 with e | r
      · rw [hr] at hpos
        simp [Except.isOk, Except.toBool] at hpos
      · have hrest := ih (fun q hq => hall q (List.mem_cons_of_mem pos hq))
        rcases hs : run_scoring batches oracle rest with e' | rs
        · rw [hs] at hrest
          simp [Except.isOk, Except.toBool] at hrest
        · simp [hr, hs, Except.isOk, Except.toBool]
  · intro batches oracle order pos hmem hbad
    induction order with
    | nil => cases hmem
    | cons q rest ih =>
      rw [run_scoring]
      rcases List.mem_cons.mp hmem with rfl | hrest
      · rcases hr : (score_one_batch (oracle pos) (batches.getD pos []) (pos + 1)).2 with e | r
        · simp [Except.isOk, Except.toBool]
        · rw [hr] at hbad
          simp [Except.isOk, Except.toBool] at hbad
      · rcases hr : (score_one_batch (oracle q) (batches.getD q []) (q + 1)).2 with e | r
        · simp [Except.isOk, Except.toBool]
        · have := ih hrest
          rcases hs : run_scoring batches oracle rest with e' | rs
          · simp [Except.isOk, Except.toBool]
          · rw [hs] at this
            simp [Except.isOk, Except.toBool] at this
  · intro indices chunk_size min_score user_idx oracle order finalOracle e hs
    simp only [run_matching_pipeline]
    rw [hs]

/-- C4 witness: a batch whose service oracle fails twice and succeeds on
the third attempt, run through the theorem: trace `call, sleep 5, call,
sleep 10, call` with the successful parsed result, and a run consisting
of that batch is not marked failed. -/
theorem C4_batch_retries_witness :
    score_one_batch
        (fun t => if t = 2 then Except.ok [("1", (9 : Int))] else Except.error ()) [7] 1
      = ([Ev.call, Ev.sleep 5, Ev.call, Ev.sleep 10, Ev.call],
         Except.ok (score_one_batch_result [("1", 9)] [7]))
    ∧ (run_scoring [[7]]
        (fun _ t => if t = 2 then Except.ok [("1", (9 : Int))] else Except.error ())
        [0]).isOk = true :=
  ⟨C4_batch_retries.2.1 _ [7] 1 [("1", 9)] rfl rfl rfl,
   C4_batch_retries.2.2.2.1 [[7]] _ [0] (by decide)⟩

/-- C6: when scoring succeeds but no candidate's merged score clears the
threshold, the direction pipeline fails with the distinguished
`noProfilesAboveThreshold` condition — for every behaviour of the
final-call oracle, so no (empty) report is ever generated or returned. -/
theorem C6_empty_threshold_fails (indices : List Nat) (chunk_size : Nat)
    (min_score : Int) (user_idx : Option Nat)
    (oracle : Nat → Nat → Except Unit (List (String × Int)))
    (order : List Nat) (results : List (List (Nat × Int)))
    (hs : run_scoring (make_batches (excludeUser indices user_idx) chunk_size) oracle order
            = .ok results)
    (ht : top_items (mergeResults results) min_score = []) :
    ∀ finalOracle,
      run_matching_pipeline indices chunk_size min_score user_idx oracle order finalOracle
        = .error (.noProfilesAboveThreshold min_score) := by
  intro finalOracle
  simp [run_matching_pipeline, hs, ht]

/-- C6 witness: a roster of one candidate scored 3 with threshold 8;
the pipeline fails with `noProfilesAboveThreshold 8` whatever the final
oracle would have answered. -/
theorem C6_empty_threshold_fails_witness :
    run_matching_pipeline [0] 1 8 none (fun _ _ => Except.ok [("1", 3)]) [0]
        (fun _ => Except.ok "report")
      = Except.error (PipeError.noProfilesAboveThreshold 8) :=
  C6_empty_threshold_fails [0] 1 8 none _ [0] [[(0, 3)]]
    (by
      have hb : make_batches (excludeUser [0] none) 1 = [[0]] := by
        simp [excludeUser, make_batches]
      rw [hb]
      rfl)
    (by decide)
    (fun _ => Except.ok "report")

/-- C8 counterexample: on an empty roster (zero batches) the direction
pipeline does not fail early with a distinct caller-input condition; it
proceeds through scoring (vacuously) and fails only at threshold
filtering, with exactly the same `noProfilesAboveThreshold` error as the
structural no-candidates-cleared-the-threshold failure. -/
theorem C8_empty_roster_counterexample :
    run_matching_pipeline [] 60 8 none (fun _ _ => Except.ok []) []
        (fun _ => Except.ok "report")
      = Except.error (PipeError.noProfilesAboveThreshold 8) := by
  have hb : make_batches (excludeUser [] none) 60 = [] := by
    simp [excludeUser, make_batches]
  simp [run_matching_pipeline, hb, run_scoring, mergeResults, top_items, sortDesc]

/-- C8 amended: an empty roster yields zero batches, an empty score map
and an empty threshold set, so the direction pipeline fails with the
same `noProfilesAboveThreshold` condition as the structural failure —
there is no separate, earlier caller-input failure condition, whatever
the oracles, chunk size, threshold or requester index. -/
theorem C8_empty_roster_amended (chunk_size : Nat) (min_score : Int)
    (user_idx : Option Nat)
    (oracle : Nat → Nat → Except Unit (List (String × Int)))
    (finalOracle : Nat → Except Unit String) :
    run_matching_pipeline [] chunk_size min_score user_idx oracle [] finalOracle
      = Except.error (PipeError.noProfilesAboveThreshold min_score) := by
  have he : excludeUser [] user_idx = [] := by
    cases user_idx with
    | none => rfl
    | some u => simp [excludeUser]
  have hb : make_batches ([] : List Nat) chunk_size = [] := by
    rw [make_batches]
    simp
  simp [run_matching_pipeline, he, hb, run_scoring, mergeResults, top_items, sortDesc]

/-! ### Lemmas about the dict model -/

theorem dictGet_mem {κ α : Type} [DecidableEq κ] :
    ∀ {d : List (κ × α)} {k : κ} {v : α}, dictGet d k = some v → (k, v) ∈ d := by
  intro d
  induction d with
  | nil => intro k v h; cases h
  | cons p ps ih =>
    intro k v h
    rw [dictGet] at h
    cases hrec : dictGet ps k with
    | some w =>
      rw [hrec] at h
      cases h
      exact List.mem_cons_of_mem p (ih hrec)
    | none =>
      rw [hrec] at h
      by_cases hk : p.1 = k
      · rw [if_pos hk] at h
        have hv : p.2 = v := by injection h
        have hp : (k, v) = p := by
          cases p with
          | mk a b => simp_all
        rw [hp]
        exact List.mem_cons_self _ _
      · rw [if_neg hk] at h
        cases h

theorem dictInsert_fresh {κ α : Type} [DecidableEq κ] (d : List (κ × α)) (k : κ) (v : α)
    (h : k ∉ d.map Prod.fst) : dictInsert d k v = d ++ [(k, v)] := by
  rw [dictInsert, if_neg]
  intro hany
  rcases List.any_eq_true.mp hany with ⟨p, hp, hpk⟩
  exact h (List.mem_map.mpr ⟨p, hp, by simpa using hpk⟩)

theorem dictUpdate_append {κ α : Type} [DecidableEq κ] :
    ∀ (new d : List (κ × α)), (new.map Prod.fst).Nodup →
    (∀ k ∈ new.map Prod.fst, k ∉ d.map Prod.fst) →
    dictUpdate d new = d ++ new := by
  intro new
  induction new with
  | nil => intro d _ _; simp [dictUpdate]
  | cons p ps ih =>
    intro d hnd hdisj
    have hnd' : p.1 ∉ ps.map Prod.fst ∧ (ps.map Prod.fst).Nodup := by
      rw [List.map_cons] at hnd
      exact List.nodup_cons.mp hnd
    have hfresh : p.1 ∉ d.map Prod.fst :=
      hdisj p.1 (List.mem_map.mpr ⟨p, List.mem_cons_self p ps, rfl⟩)
    have step : dictUpdate d (p :: ps) = dictUpdate (d ++ [p]) ps := by
      rw [dictUpdate, List.foldl_cons, dictInsert_fresh d p.1 p.2 hfresh]
      rfl
    rw [step, ih (d ++ [p]) hnd'.2]
    · simp
    · intro k hk
      simp only [List.map_append, List.mem_append, List.map_cons, List.map_nil,
        List.mem_singleton]
      rintro (hkd | hkp)
      · exact hdisj k (by simp [hk]) hkd
      · exact hnd'.1 (hkp ▸ hk)

theorem score_one_batch_result_eq (scores : List (String × Int)) (batch : List Nat)
    (hnd : batch.Nodup) :
    score_one_batch_result scores batch
      = (batch.enumFrom 1).map
          (fun p => (p.2, (dictGet scores (toString p.1)).getD 0)) := by
  rw [score_one_batch_result]
  rw [dictUpdate_append]
  · simp
  · have hkeys :
        ((batch.enumFrom 1).map
            (fun p => (p.2, (dictGet scores (toString p.1)).getD 0))).map Prod.fst
          = batch := by
      rw [List.map_map]
      have : (Prod.fst ∘ fun p : Nat × Nat =>
          (p.2, (dictGet scores (toString p.1)).getD 0)) = Prod.snd := by
        funext p
        rfl
      rw [this, List.enumFrom_map_snd]
    rw [hkeys]
    exact hnd
  · simp

/-! ### Claim C3 — score parsing -/

/-- C3 counterexample: the claim "every value in the parsed map is an
integer in [0,10]" fails on the code: a service response mapping
ordinal `"1"` to `11` is copied verbatim into the partial map, which
then holds the out-of-range value `11` for candidate `42`. -/
theorem C3_parse_counterexample :
    ¬ (∀ q ∈ score_one_batch_result [("1", 11)] [42], 0 ≤ q.2 ∧ q.2 ≤ 10) := by
  decide

/-- C3 amended: parsing a batch pairs the `j`-th candidate index with
the verbatim value of ordinal `str(j)` in the response, defaulting to
`0` when that ordinal is missing (never raising); every index of the
batch is present (the keys are exactly the batch, in order); every
value is either the `0` default or a value occurring verbatim in the
response — so values all lie in [0,10] only under the additional
assumption that the response's values do. -/
theorem C3_parse_amended (scores : List (String × Int)) (batch : List Nat)
    (hnd : batch.Nodup) :
    score_one_batch_result scores batch
        = (batch.enumFrom 1).map
            (fun p => (p.2, (dictGet scores (toString p.1)).getD 0))
    ∧ (score_one_batch_result scores batch).map Prod.fst = batch
    ∧ (∀ q ∈ score_one_batch_result scores batch,
        q.2 = 0 ∨ ∃ j : Nat, (toString j, q.2) ∈ scores)
    ∧ ((∀ v ∈ scores.map Prod.snd, 0 ≤ v ∧ v ≤ 10) →
        ∀ q ∈ score_one_batch_result scores batch, 0 ≤ q.2 ∧ q.2 ≤ 10) := by
  have heq := score_one_batch_result_eq scores batch hnd
  have hval : ∀ q ∈ score_one_batch_result scores batch,
      q.2 = 0 ∨ ∃ j : Nat, (toString j, q.2) ∈ scores := by
    intro q hq
    rw [heq] at hq
    rcases List.mem_map.mp hq with ⟨p, _, rfl⟩
    cases hget : dictGet scores (toString p.1) with
    | none => left; simp [hget]
    | some v =>
      right
      refine ⟨p.1, ?_⟩
      have : (dictGet scores (toString p.1)).getD 0 = v := by simp [hget]
      simp only [this]
      exact dictGet_mem hget
  refine ⟨heq, ?_, hval, ?_⟩
  · rw [heq, List.map_map]
    have : (Prod.fst ∘ fun p : Nat × Nat =>
        (p.2, (dictGet scores (toString p.1)).getD 0)) = Prod.snd := by
      funext p
      rfl
    rw [this, List.enumFrom_map_snd]
  · intro hbound q hq
    rcases hval q hq with h0 | ⟨j, hj⟩
    · omega
    · exact hbound q.2 (List.mem_map.mpr ⟨(toString j, q.2), hj, rfl⟩)

/-- C3 witness: the amended theorem applied to the response `{"1": 7}`
and the two-candidate batch `[5, 9]`: candidate 5 gets the verbatim 7,
candidate 9's ordinal "2" is missing and defaults to 0. -/
theorem C3_parse_witness :
    score_one_batch_result [("1", 7)] [5, 9] = [(5, 7), (9, 0)] :=
  ((C3_parse_amended [("1", 7)] [5, 9] (by decide)).1).trans (by decide)

/-! ### Claim C9 — completion-order (in)dependence of the merge -/

theorem dictGet_eq_none_of_not_mem {κ α : Type} [DecidableEq κ] :
    ∀ {d : List (κ × α)} {k : κ}, k ∉ d.map Prod.fst → dictGet d k = none := by
  intro d
  induction d with
  | nil => intro k _; rfl
  | cons p ps ih =>
    intro k hk
    have hk1 : p.1 ≠ k := by
      intro h
      exact hk (List.mem_map.mpr ⟨p, List.mem_cons_self p ps, h⟩)
    have hk2 : k ∉ ps.map Prod.fst := by
      intro h
      rcases List.mem_map.mp h with ⟨q, hq, hqk⟩
      exact hk (List.mem_map.mpr ⟨q, List.mem_cons_of_mem p hq, hqk⟩)
    rw [dictGet, ih hk2, if_neg hk1]

theorem dictGet_of_mem {κ α : Type} [DecidableEq κ] :
    ∀ {d : List (κ × α)} {k : κ} {v : α}, (d.map Prod.fst).Nodup →
      (k, v) ∈ d → dictGet d k = some v := by
  intro d
  induction d with
  | nil => intro k v _ h; cases h
  | cons p ps ih =>
    intro k v hnd hm
    have hnd' : p.1 ∉ ps.map Prod.fst ∧ (ps.map Prod.fst).Nodup := by
      rw [List.map_cons] at hnd
      exact List.nodup_cons.mp hnd
    rcases List.mem_cons.mp hm with rfl | hps
    · have hnone : dictGet ps k = none := dictGet_eq_none_of_not_mem hnd'.1
      rw [dictGet, hnone, if_pos rfl]
    · have hsome : dictGet ps k = some v := ih hnd'.2 hps
      rw [dictGet, hsome]

theorem dictGet_eq_of_perm {κ α : Type} [DecidableEq κ] (m m' : List (κ × α))
    (hperm : m.Perm m') (hnd : (m.map Prod.fst).Nodup) (k : κ) :
    dictGet m k = dictGet m' k := by
  have hnd' : (m'.map Prod.fst).Nodup := (hperm.map Prod.fst).nodup_iff.mp hnd
  cases hg : dictGet m k with
  | some v =>
    exact (dictGet_of_mem hnd' (hperm.mem_iff.mp (dictGet_mem hg))).symm
  | none =>
    have hk : k ∉ m.map Prod.fst := by
      intro hkm
      rcases List.mem_map.mp hkm with ⟨p, hp, hpk⟩
      have hmem : (k, p.2) ∈ m := by
        cases p with
        | mk a b =>
          simp only at hpk
          rw [← hpk]
          exact hp
      have := dictGet_of_mem hnd hmem
      rw [hg] at this
      cases this
    have hk' : k ∉ m'.map Prod.fst := fun h =>
      hk ((hperm.map Prod.fst).mem_iff.mpr h)
    rw [dictGet_eq_none_of_not_mem hk']

theorem foldl_dictUpdate_append :
    ∀ (rs : List (List (Nat × Int))) (d : List (Nat × Int)),
      ((d ++ rs.flatten).map Prod.fst).Nodup →
      rs.foldl dictUpdate d = d ++ rs.flatten := by
  intro rs
  induction rs with
  | nil => intro d _; simp
  | cons r rs ih =>
    intro d hnd
    have h := hnd
    rw [List.flatten_cons, List.map_append, List.map_append] at h
    have htail : ((r.map Prod.fst) ++ (rs.flatten.map Prod.fst)).Nodup :=
      h.of_append_right
    have hrkeys : (r.map Prod.fst).Nodup := htail.of_append_left
    have hdisjd : (d.map Prod.fst).Disjoint
        ((r.map Prod.fst) ++ (rs.flatten.map Prod.fst)) :=
      List.disjoint_of_nodup_append h
    have hdisj : ∀ k ∈ r.map Prod.fst, k ∉ d.map Prod.fst := by
      intro k hkr hkd
      exact hdisjd hkd (List.mem_append_left _ hkr)
    have hstep : dictUpdate d r = d ++ r := dictUpdate_append r d hrkeys hdisj
    have hnext : (((d ++ r) ++ rs.flatten).map Prod.fst).Nodup := by
      have := hnd
      rw [List.flatten_cons] at this
      simpa [List.append_assoc] using this
    rw [List.foldl_cons, hstep, ih (d ++ r) hnext]
    simp [List.append_assoc]

theorem mergeResults_flatten (rs : List (List (Nat × Int)))
    (hnd : (rs.flatten.map Prod.fst).Nodup) : mergeResults rs = rs.flatten := by
  have := foldl_dictUpdate_append rs [] (by simpa using hnd)
  simpa [mergeResults] using this

/-- C9 counterexample: the thresholded candidate list is not the same
for every completion order of the same fixed batch results: merging the
partial maps `{0:9}` and `{1:9}` in the two possible completion orders
yields differently ordered tie groups, because Python's stable sort
keeps dict insertion order — which is completion order — for equal
scores. -/
theorem C9_tie_order_counterexample :
    top_items (mergeResults [[(0, 9)], [(1, 9)]]) 8
      ≠ top_items (mergeResults [[(1, 9)], [(0, 9)]]) 8 := by
  decide

/-- C9 amended: for a fixed set of per-batch partial score maps with
pairwise-disjoint, duplicate-free keys, the merged map is the same
function of candidate to score regardless of completion order, and the
thresholded lists produced from two completion orders are permutations
of each other (same candidates, same scores) — but the relative order
of equal-scored candidates follows completion order and is therefore
not determined by the batch results alone. -/
theorem C9_merge_completion_order (rs rs' : List (List (Nat × Int))) (s : Int)
    (hperm : rs'.Perm rs) (hnd : (rs.flatten.map Prod.fst).Nodup) :
    (∀ k, dictGet (mergeResults rs') k = dictGet (mergeResults rs) k)
    ∧ (top_items (mergeResults rs') s).Perm (top_items (mergeResults rs) s) := by
  have hfl : rs'.flatten.Perm rs.flatten := hperm.flatten
  have hnd' : (rs'.flatten.map Prod.fst).Nodup := (hfl.map Prod.fst).nodup_iff.mpr hnd
  have hm : mergeResults rs = rs.flatten := mergeResults_flatten _ hnd
  have hm' : mergeResults rs' = rs'.flatten := mergeResults_flatten _ hnd'
  constructor
  · intro k
    rw [hm, hm']
    exact dictGet_eq_of_perm _ _ hfl hnd' k
  · rw [hm, hm']
    exact (top_items_perm _ s).trans ((hfl.filter _).trans (top_items_perm _ s).symm)

/-- C9 witness: the amended theorem applied to the two completion orders
of the batch results `{0:9}` and `{1:9}` with threshold `8`. -/
theorem C9_merge_completion_order_witness :
    dictGet (mergeResults [[(1, 9)], [(0, 9)]]) 0
        = dictGet (mergeResults [[(0, 9)], [(1, 9)]]) 0
    ∧ (top_items (mergeResults [[(1, 9)], [(0, 9)]]) 8).Perm
        (top_items (mergeResults [[(0, 9)], [(1, 9)]]) 8) :=
  ⟨(C9_merge_completion_order [[(0, 9)], [(1, 9)]] [[(1, 9)], [(0, 9)]] 8
      (by decide) (by decide)).1 0,
   (C9_merge_completion_order [[(0, 9)], [(1, 9)]] [[(1, 9)], [(0, 9)]] 8
      (by decide) (by decide)).2⟩

/-! ### Claim C1 — timing of outbound calls in the dual pipeline

utils.py:401-440 (`run_dual_matching_pipeline`) constructs one shared
`AsyncAzureOpenAI` client and starts both directions' pipelines with
`asyncio.gather`; no rate limiter object exists anywhere in the source,
and the batch tasks call the service directly.  The timing model below
records each task's events (calls and backoff sleeps); a cooperative
schedule interleaves them, and logical time advances only at sleeps
(the external service's latency is not under the program's control and
can be arbitrarily close to zero). -/

/-- The event trace of one batch-scoring task. -/
def batch_task_trace (oracle : Nat → Except Unit (List (String × Int)))
    (batch : List Nat) (num : Nat) : List Ev :=
  (score_one_batch oracle batch num).1

/-- The batch tasks started by `run_dual_matching_pipeline`: the same
batches are dispatched once per direction, all against the shared
client. -/
def dual_pipeline_tasks (indices : List Nat) (chunk_size : Nat) (user_idx : Option Nat)
    (oracleGet oracleGive : Nat → Nat → Except Unit (List (String × Int))) :
    List (List Ev) :=
  let bs := make_batches (excludeUser indices user_idx) chunk_size
  bs.enum.map (fun p => batch_task_trace (oracleGet p.1) p.2 (p.1 + 1))
    ++ bs.enum.map (fun p => batch_task_trace (oracleGive p.1) p.2 (p.1 + 1))

/-- Cooperative interleaving: `sched` picks, step by step, which task
performs its next event; picking an exhausted or invalid index performs
nothing. -/
def interleave : List (List Ev) → List Nat → List Ev
  | _, [] => []
  | tasks, i :: rest =>
    match tasks.getD i [] with
    | [] => interleave tasks rest
    | e :: es => e :: interleave (tasks.set i es) rest

/-- Seconds of accumulated sleep before each outbound call of a trace. -/
def grantTimesAux : List Ev → Nat → List Nat
  | [], _ => []
  | Ev.sleep d :: es, t => grantTimesAux es (t + d)
  | Ev.call :: es, t => t :: grantTimesAux es t

/-- The grant time (in accumulated-sleep seconds) of every outbound call
in an interleaved execution. -/
def grantTimes (evs : List Ev) : List Nat :=
  grantTimesAux evs 0

theorem batch_task_trace_firstOk (oracle : Nat → Except Unit (List (String × Int)))
    (batch : List Nat) (num : Nat) (scores : List (String × Int))
    (h : oracle 0 = Except.ok scores) :
    batch_task_trace oracle batch num = [Ev.call] := by
  rw [batch_task_trace, score_one_batch, range_three, attempts_loop, h]

theorem interleave_all_call (tasks : List (List Ev)) (sched : List Nat)
    (h : ∀ tr ∈ tasks, ∀ e ∈ tr, e = Ev.call) :
    ∀ e ∈ interleave tasks sched, e = Ev.call := by
  induction sched generalizing tasks with
  | nil => intro e he; cases he
  | cons i rest ih =>
    intro e he
    rw [interleave] at he
    cases htr : tasks.getD i [] with
    | nil =>
      rw [htr] at he
      exact ih tasks h e he
    | cons e0 es =>
      rw [htr] at he
      have hin : e0 :: es ∈ tasks := by
        rcases Nat.lt_or_ge i tasks.length with hi | hi
        · rw [List.getD_eq_getElem _ _ hi] at htr
          rw [← htr]
          exact List.getElem_mem hi
        · rw [List.getD_eq_default _ _ hi] at htr
          cases htr
      rcases List.mem_cons.mp he with rfl | he'
      · exact h _ hin e (List.mem_cons_self _ _)
      · refine ih (tasks.set i es) ?_ e he'
        intro tr htr' e' he''
        rcases List.mem_or_eq_of_mem_set htr' with hmem | rfl
        · exact h tr hmem e' he''
        · exact h _ hin e' (List.mem_cons_of_mem _ he'')

theorem grantTimesAux_all_call (evs : List Ev) (t : Nat)
    (h : ∀ e ∈ evs, e = Ev.call) : ∀ u ∈ grantTimesAux evs t, u = t := by
  induction evs with
  | nil => intro u hu; cases hu
  | cons e es ih =>
    intro u hu
    have he : e = Ev.call := h e (List.mem_cons_self _ _)
    subst he
    rw [grantTimesAux] at hu
    rcases List.mem_cons.mp hu with rfl | hu'
    · rfl
    · exact ih (fun e' he' => h e' (List.mem_cons_of_mem _ he')) u hu'

/-- C1 counterexample: there is no rate limiter in the code, and the
claimed minimum inter-grant interval of `60/maxPerMinute` seconds does
not hold: in a dual-pipeline run over roster `[0,1]` with batch size 1
(two batch tasks per direction, each succeeding on its first attempt),
a cooperative schedule grants all four outbound calls at time 0 — the
interval between successive grants is 0, below the claimed `60/25`
seconds for a 25-per-minute limiter. -/
theorem C1_rate_limiter_counterexample :
    grantTimes (interleave
        (dual_pipeline_tasks [0, 1] 1 none
          (fun _ _ => Except.ok [("1", 5)]) (fun _ _ => Except.ok [("1", 5)]))
        [0, 1, 2, 3]) = [0, 0, 0, 0]
    ∧ (0 : ℚ) < 60 / 25 := by
  constructor
  · have hb : make_batches (excludeUser [0, 1] none) 1 = [[0], [1]] := by
      simp [excludeUser, make_batches]
    simp only [dual_pipeline_tasks, hb]
    decide
  · norm_num

/-- C1 amended: the dual pipeline has no rate limiter at all: a batch
task whose first attempt succeeds performs exactly one outbound call
preceded by no sleep, and in any failure-free run (every batch's first
attempt succeeds) every outbound call of every cooperative schedule is
granted at time 0 — the code enforces no positive lower bound on the
interval between successive grants; its only delays are the retry
backoff sleeps after failures. -/
theorem C1_rate_limiter_amended :
    (∀ oracle batch num scores, oracle 0 = Except.ok scores →
      batch_task_trace oracle batch num = [Ev.call])
    ∧ (∀ indices chunk_size user_idx oracleGet oracleGive sched,
        (∀ i, ∃ s, oracleGet i 0 = Except.ok s) →
        (∀ i, ∃ s, oracleGive i 0 = Except.ok s) →
        (grantTimes (interleave
            (dual_pipeline_tasks indices chunk_size user_idx oracleGet oracleGive)
            sched)).all (fun t => t == 0) = true) := by
  refine ⟨batch_task_trace_firstOk, ?_⟩
  intro indices chunk_size user_idx oracleGet oracleGive sched hget hgive
  rw [List.all_eq_true]
  intro t ht
  rw [beq_iff_eq]
  have hall : ∀ tr ∈ dual_pipeline_tasks indices chunk_size user_idx oracleGet oracleGive,
      ∀ e ∈ tr, e = Ev.call := by
    intro tr htr e he
    simp only [dual_pipeline_tasks] at htr
    rcases List.mem_append.mp htr with hmem | hmem
    · rcases List.mem_map.mp hmem with ⟨p, _, rfl⟩
      rcases hget p.1 with ⟨s, hs⟩
      rw [batch_task_trace_firstOk _ _ _ _ hs] at he
      simpa using he
    · rcases List.mem_map.mp hmem with ⟨p, _, rfl⟩
      rcases hgive p.1 with ⟨s, hs⟩
      rw [batch_task_trace_firstOk _ _ _ _ hs] at he
      simpa using he
  exact grantTimesAux_all_call _ 0 (interleave_all_call _ sched hall) t ht

/-- C1 witness: the amended theorem applied to the concrete failure-free
dual run over roster `[0]` with batch size 1 and a schedule running the
GET task then the GIVE task: every grant happens at time 0. -/
theorem C1_rate_limiter_witness :
    (grantTimes (interleave
        (dual_pipeline_tasks [0] 1 none
          (fun _ _ => Except.ok [("1", 8)]) (fun _ _ => Except.ok [("1", 8)]))
        [0, 1])).all (fun t => t == 0) = true :=
  C1_rate_limiter_amended.2 [0] 1 none _ _ [0, 1]
    (fun _ => ⟨[("1", 8)], rfl⟩) (fun _ => ⟨[("1", 8)], rfl⟩)

/-! ### Claim C7 — the Overlap Reconciler (app.py:499-547)

`fuzz.ratio` (rapidfuzz) is the normalized Indel similarity scaled to
[0,100]: `ratio(a,b) = 100 * (1 - dist/(|a|+|b|))` with
`dist = |a| + |b| - 2 * lcs(a,b)`, i.e. `ratio = 200*lcs/(|a|+|b|)`
(and `100` for two empty strings).  `lcs` is computed by the standard
row dynamic programme.  The threshold test `fuzz.ratio(x, y) >= 85` is
embedded as the equivalent integer comparison `fuzz_ratio_ge85`
(equivalence proved in `fuzz_ratio_ge85_iff`), keeping the reconciler
executable by kernel reduction. -/

/-- One row update of the longest-common-subsequence dynamic programme:
`diag` is the previous row's entry one column back, `left` the entry
just computed in the current row. -/
def lcsNextRow (c : Char) : List Char → List Nat → Nat → Nat → List Nat
  | [], _, _, _ => []
  | _ :: _, [], _, _ => []
  | bj :: bs, pj :: ps, diag, left =>
    let nj := if c = bj then diag + 1 else max left pj
    nj :: lcsNextRow c bs ps pj nj

/-- Length of the longest common subsequence of two character lists. -/
def lcs (a b : List Char) : Nat :=
  (a.foldl (fun prev c => 0 :: lcsNextRow c b prev.tail (prev.headD 0) 0)
    (List.replicate (b.length + 1) 0)).getLastD 0

/-- rapidfuzz `fuzz.ratio`, as an exact rational in [0,100]. -/
def fuzz_ratio (a b : String) : ℚ :=
  if a.length + b.length = 0 then 100
  else 200 * (lcs a.data b.data : ℚ) / ((a.length : ℚ) + (b.length : ℚ))

/-- The comparison `fuzz.ratio(a, b) >= 85` as a kernel-computable
integer inequality. -/
def fuzz_ratio_ge85 (a b : String) : Bool :=
  decide (85 * (a.length + b.length) ≤ 200 * lcs a.data b.data)

theorem fuzz_ratio_ge85_iff (a b : String) :
    fuzz_ratio_ge85 a b = true ↔ (85 : ℚ) ≤ fuzz_ratio a b := by
  rw [fuzz_ratio_ge85, decide_eq_true_eq, fuzz_ratio]
  by_cases h : a.length + b.length = 0
  · rw [if_pos h]
    constructor
    · intro _
      norm_num
    · intro _
      simp [h]
  · rw [if_neg h]
    have hpos : (0 : ℚ) < (a.length : ℚ) + (b.length : ℚ) := by
      have : 0 < a.length + b.length := Nat.pos_of_ne_zero h
      exact_mod_cast this
    rw [le_div_iff₀ hpos]
    constructor
    · intro hle
      have h2 : ((85 * (a.length + b.length) : ℕ) : ℚ)
          ≤ ((200 * lcs a.data b.data : ℕ) : ℚ) := by exact_mod_cast hle
      push_cast at h2
      linarith
    · intro hle
      have h2 : ((85 * (a.length + b.length) : ℕ) : ℚ)
          ≤ ((200 * lcs a.data b.data : ℕ) : ℚ) := by
        push_cast
        linarith
      exact_mod_cast h2

/-- app.py:540-543 — the inner loop of the fuzzy pass for one get-side
key: the first give-side key not already in `overlap_names` whose
similarity is at least 85. -/
def find_fuzzy_match (get_key : String) (give_keys overlap : List String) : Option String :=
  give_keys.find? (fun gk => !(overlap.contains gk) && fuzz_ratio_ge85 get_key gk)

/-- app.py:536-547 — the fuzzy matching pass over the get-side keys,
threading the `overlap_names` set (as a list; only membership is used)
and the recorded `get_key -> _give_key` assignments. -/
def fuzzy_pass (give_keys : List String) :
    List String → List String → List (String × String) → List String × List (String × String)
  | [], overlap, assigns => (overlap, assigns)
  | gk :: rest, overlap, assigns =>
    if gk ∈ overlap then fuzzy_pass give_keys rest overlap assigns
    else
      match find_fuzzy_match gk give_keys overlap with
      | some hk => fuzzy_pass give_keys rest (overlap ++ [gk]) (assigns ++ [(gk, hk)])
      | none => fuzzy_pass give_keys rest overlap assigns

/-- app.py:533-547 — the Overlap Reconciler on the two reports' entry
keys (already lowercased by `extract_entries`): exact intersection
first, then the fuzzy pass, which runs only when some get-side key is
not exactly matched (the length test; equivalent to a no-op otherwise). -/
def reconcile_overlap (get_keys give_keys : List String) : List String × List (String × String) :=
  let overlap0 := get_keys.filter (fun k => give_keys.contains k)
  if overlap0.length < get_keys.length then fuzzy_pass give_keys get_keys overlap0 []
  else (overlap0, [])

theorem find_fuzzy_match_sound {gk : String} {give overlap : List String} {hk : String}
    (h : find_fuzzy_match gk give overlap = some hk) :
    hk ∈ give ∧ hk ∉ overlap ∧ (85 : ℚ) ≤ fuzz_ratio gk hk := by
  rw [find_fuzzy_match] at h
  rcases List.find?_eq_some.mp h with ⟨hp, as, bs, rfl, _⟩
  simp only [Bool.and_eq_true, Bool.not_eq_true'] at hp
  exact ⟨List.mem_append_right _ (List.mem_cons_self _ _), by simpa using hp.1,
    (fuzz_ratio_ge85_iff _ _).mp hp.2⟩

theorem fuzzy_pass_sound (give : List String) :
    ∀ (gets overlap : List String) (assigns : List (String × String)),
    ∀ p ∈ (fuzzy_pass give gets overlap assigns).2,
      p ∈ assigns ∨ (p.1 ∈ gets ∧ p.2 ∈ give ∧ (85 : ℚ) ≤ fuzz_ratio p.1 p.2
        ∧ p.1 ∉ overlap ∧ p.2 ∉ overlap) := by
  intro gets
  induction gets with
  | nil => intro overlap assigns p hp; exact Or.inl hp
  | cons gk rest ih =>
    intro overlap assigns p hp
    rw [fuzzy_pass] at hp
    by_cases hgk : gk ∈ overlap
    · rw [if_pos hgk] at hp
      rcases ih overlap assigns p hp with h | h
      · exact Or.inl h
      · exact Or.inr ⟨List.mem_cons_of_mem _ h.1, h.2⟩
    · rw [if_neg hgk] at hp
      cases hf : find_fuzzy_match gk give overlap with
      | none =>
        rw [hf] at hp
        rcases ih overlap assigns p hp with h | h
        · exact Or.inl h
        · exact Or.inr ⟨List.mem_cons_of_mem _ h.1, h.2⟩
      | some hk =>
        rw [hf] at hp
        rcases ih (overlap ++ [gk]) (assigns ++ [(gk, hk)]) p hp with h | h
        · rcases List.mem_append.mp h with h' | h'
          · exact Or.inl h'
          · rcases find_fuzzy_match_sound hf with ⟨hg1, hg2, hg3⟩
            have hpk : p = (gk, hk) := List.mem_singleton.mp h'
            subst hpk
            exact Or.inr ⟨List.mem_cons_self _ _, hg1, hg3, hgk, hg2⟩
        · refine Or.inr ⟨List.mem_cons_of_mem _ h.1, h.2.1, h.2.2.1, ?_, ?_⟩
          · exact fun hx => h.2.2.2.1 (List.mem_append_left _ hx)
          · exact fun hx => h.2.2.2.2 (List.mem_append_left _ hx)

theorem fuzzy_pass_fst_nodup (give : List String) :
    ∀ (gets overlap : List String) (assigns : List (String × String)),
    (∀ p ∈ assigns, p.1 ∈ overlap) → (assigns.map Prod.fst).Nodup →
    ((fuzzy_pass give gets overlap assigns).2.map Prod.fst).Nodup := by
  intro gets
  induction gets with
  | nil => intro overlap assigns _ hnd; exact hnd
  | cons gk rest ih =>
    intro overlap assigns hinv hnd
    rw [fuzzy_pass]
    by_cases hgk : gk ∈ overlap
    · rw [if_pos hgk]
      exact ih overlap assigns hinv hnd
    · rw [if_neg hgk]
      cases hf : find_fuzzy_match gk give overlap with
      | none => exact ih overlap assigns hinv hnd
      | some hk =>
        refine ih (overlap ++ [gk]) (assigns ++ [(gk, hk)]) ?_ ?_
        · intro p hp
          rcases List.mem_append.mp hp with h' | h'
          · exact List.mem_append_left _ (hinv p h')
          · have : p = (gk, hk) := List.mem_singleton.mp h'
            subst this
            exact List.mem_append_right _ (List.mem_singleton.mpr rfl)
        · rw [List.map_append]
          rw [List.nodup_append]
          refine ⟨hnd, List.nodup_singleton _, ?_⟩
          intro x hx hx'
          have : x = gk := by simpa using hx'
          subst this
          rcases List.mem_map.mp hx with ⟨p, hp, hpf⟩
          exact hgk (hpf ▸ hinv p hp)

theorem fuzzy_pass_no_match (give : List String) :
    ∀ (gets : List String),
    (∀ g ∈ gets, ∀ h ∈ give, fuzz_ratio g h < 85) →
    fuzzy_pass give gets [] [] = ([], []) := by
  intro gets hlow
  induction gets with
  | nil => rfl
  | cons gk rest ih =>
    rw [fuzzy_pass, if_neg (List.not_mem_nil gk)]
    have hf : find_fuzzy_match gk give [] = none := by
      rw [find_fuzzy_match, List.find?_eq_none]
      intro hk hhk
      simp only [Bool.and_eq_true, Bool.not_eq_true', not_and]
      intro _ hcon
      exact absurd ((fuzz_ratio_ge85_iff _ _).mp hcon)
        (not_le.mpr (hlow gk (List.mem_cons_self _ _) hk hhk))
    rw [hf]
    exact ih (fun g hg h hh => hlow g (List.mem_cons_of_mem _ hg) h hh)


theorem fuzzy_pass_overlap_mono (give : List String) :
    ∀ (gets overlap : List String) (assigns : List (String × String)),
    overlap ⊆ (fuzzy_pass give gets overlap assigns).1 := by
  intro gets
  induction gets with
  | nil => intro overlap assigns; exact List.Subset.refl _
  | cons gk rest ih =>
    intro overlap assigns
    rw [fuzzy_pass]
    by_cases hgk : gk ∈ overlap
    · rw [if_pos hgk]
      exact ih overlap assigns
    · rw [if_neg hgk]
      cases hf : find_fuzzy_match gk give overlap with
      | none => exact ih overlap assigns
      | some hk =>
        exact fun x hx =>
          ih (overlap ++ [gk]) (assigns ++ [(gk, hk)]) (List.mem_append_left _ hx)

/-- C7 amended: the reconciler computes the case-insensitive exact
intersection of the two reports' keys (always contained in the final
overlap set); every approximate cross-reference pairs a not-exactly-
matched get-side name with a give-side name of similarity at least 0.85
that is not exactly matched; each get-side name is cross-referenced at
most once (first sufficient give-side match wins, by `find?`), and when
no exact match exists and all similarities are below 0.85 the
reconciler reports nothing; the `"jon smith"`/`"john smith"` pair (ratio
1800/19 which is at least 85) is reported as one overlap entry.  Unlike the claim, an
approximately-matched give-side name is not protected from being
matched again (see the counterexample). -/
theorem C7_reconciler_amended (get_keys give_keys : List String) :
    (∀ k, k ∈ get_keys.filter (fun k => give_keys.contains k)
        ↔ (k ∈ get_keys ∧ k ∈ give_keys))
    ∧ (get_keys.filter (fun k => give_keys.contains k))
        ⊆ (reconcile_overlap get_keys give_keys).1
    ∧ (∀ p ∈ (reconcile_overlap get_keys give_keys).2,
        p.1 ∈ get_keys ∧ p.2 ∈ give_keys ∧ (85 : ℚ) ≤ fuzz_ratio p.1 p.2
        ∧ p.1 ∉ get_keys.filter (fun k => give_keys.contains k)
        ∧ p.2 ∉ get_keys.filter (fun k => give_keys.contains k))
    ∧ (((reconcile_overlap get_keys give_keys).2.map Prod.fst).Nodup)
    ∧ ((∀ g ∈ get_keys, ∀ h ∈ give_keys, fuzz_ratio g h < 85) →
        (∀ k ∈ get_keys, k ∉ give_keys) →
        reconcile_overlap get_keys give_keys = ([], []))
    ∧ reconcile_overlap ["jon smith"] ["john smith"]
        = (["jon smith"], [("jon smith", "john smith")]) := by
  refine ⟨?_, ?_, ?_, ?_, ?_, by decide⟩
  · intro k
    simp [List.mem_filter]
  · rw [reconcile_overlap]
    by_cases hlt : (get_keys.filter (fun k => give_keys.contains k)).length
        < get_keys.length
    · rw [if_pos hlt]
      exact fuzzy_pass_overlap_mono give_keys get_keys _ []
    · rw [if_neg hlt]
      exact List.Subset.refl _
  · intro p hp
    rw [reconcile_overlap] at hp
    by_cases hlt : (get_keys.filter (fun k => give_keys.contains k)).length
        < get_keys.length
    · rw [if_pos hlt] at hp
      rcases fuzzy_pass_sound give_keys get_keys _ [] p hp with h | h
      · cases h
      · exact ⟨h.1, h.2.1, h.2.2.1, h.2.2.2.1, h.2.2.2.2⟩
    · rw [if_neg hlt] at hp
      cases hp
  · rw [reconcile_overlap]
    by_cases hlt : (get_keys.filter (fun k => give_keys.contains k)).length
        < get_keys.length
    · rw [if_pos hlt]
      exact fuzzy_pass_fst_nodup give_keys get_keys _ []
        (fun p hp => absurd hp (List.not_mem_nil p)) (List.nodup_nil)
    · rw [if_neg hlt]
      exact List.nodup_nil
  · intro hlow hdisj
    have h0 : get_keys.filter (fun k => give_keys.contains k) = [] := by
      rw [List.filter_eq_nil_iff]
      intro k hk
      simpa using hdisj k hk
    rw [reconcile_overlap, h0]
    cases hget : get_keys with
    | nil => simp
    | cons g gs =>
      rw [← hget]
      have hlen : ([] : List String).length < get_keys.length := by
        rw [hget]
        simp
      rw [if_pos hlen]
      exact fuzzy_pass_no_match give_keys get_keys hlow

/-- C7 counterexample: the claim "an already-matched name is never
matched again" fails: with get-side names `abcdefghx`, `abcdefghy` and
the single give-side name `abcdefgh` (both similarities 1600/17, above
the 0.85 threshold, and no exact matches), the give-side name is
cross-referenced twice — once by each get-side name — because only
exactly-matched names are inserted into `overlap_names`, never
fuzzily-matched give-side names. -/
theorem C7_rematch_counterexample :
    (reconcile_overlap ["abcdefghx", "abcdefghy"] ["abcdefgh"]).2
      = [("abcdefghx", "abcdefgh"), ("abcdefghy", "abcdefgh")]
    ∧ ¬ (((reconcile_overlap ["abcdefghx", "abcdefghy"] ["abcdefgh"]).2.map
          Prod.snd).Nodup) := by
  constructor
  · decide
  · decide

/-! ### Claim C10 — report entry extraction (app.py:499-527)

`extract_entries` splits a report at lines beginning `"### "`
(the `re.split(r'(?=^### )', ..., flags=re.MULTILINE)` of the source),
parses each part's heading with the exact backtracking semantics of
`re.match(r'###\s*#?\d+\.?\s*(.+)', ...)`, takes the text before the
first em/en dash, strips markdown-link decoration, and stores the entry
in a dict keyed by the lowercased bare name — so a later entry with the
same case-insensitive name overwrites an earlier one. -/

structure MdEntry where
  name : String
  heading : String
  body : String
deriving Repr, DecidableEq

def splitOnNl : List Char → List (List Char)
  | [] => [[]]
  | '\n' :: rest => [] :: splitOnNl rest
  | c :: rest =>
    match splitOnNl rest with
    | [] => [[c]]
    | l :: ls => (c :: l) :: ls

def trimChars (cs : List Char) : List Char :=
  ((cs.dropWhile Char.isWhitespace).reverse.dropWhile Char.isWhitespace).reverse

def startsWithHeadingMark (l : List Char) : Bool :=
  match l with
  | '#' :: '#' :: '#' :: ' ' :: _ => true
  | _ => false

def startsWithHashes (l : List Char) : Bool :=
  match l with
  | '#' :: '#' :: '#' :: _ => true
  | _ => false

def splitAtHeadings (lines : List (List Char)) : List (List (List Char)) :=
  let r := lines.foldr
    (fun l acc =>
      let cur := l :: acc.1
      if startsWithHeadingMark l then (([] : List (List Char)), cur :: acc.2)
      else (cur, acc.2))
    ([], [])
  r.1 :: r.2

def joinNl : List (List Char) → List Char
  | [] => []
  | [l] => l
  | l :: ls => l ++ '\n' :: joinNl ls

def afterDot : List Char → Option (List Char)
  | [] => none
  | '.' :: t =>
    let rem := t.dropWhile Char.isWhitespace
    if rem.isEmpty then
      if t.isEmpty then some ['.'] else some [t.getLastD ' ']
    else some rem
  | r3 =>
    let rem := r3.dropWhile Char.isWhitespace
    if rem.isEmpty then some [r3.getLastD ' '] else some rem

def matchHeading (line : List Char) : Option (List Char) :=
  match line with
  | '#' :: '#' :: '#' :: rest =>
    let r1 := rest.dropWhile Char.isWhitespace
    let r2 := match r1 with
      | '#' :: t => t
      | r => r
    let digits := r2.takeWhile Char.isDigit
    if digits.isEmpty then none
    else
      let r3 := r2.dropWhile Char.isDigit
      match afterDot r3 with
      | some g => some g
      | none => if 2 ≤ digits.length then some [digits.getLastD '0'] else none
  | _ => none

def linkMatch (s : List Char) : Option (List Char) :=
  match s with
  | '[' :: rest =>
    let inner := rest.takeWhile (fun c => !(c == ']'))
    let after := rest.dropWhile (fun c => !(c == ']'))
    if inner.isEmpty || after.isEmpty then none else some inner
  | _ => none

def extract_one (group : List (List Char)) : Option (String × MdEntry) :=
  let part := trimChars (joinNl group)
  if startsWithHashes part then
    let partLines := splitOnNl part
    let heading_line := partLines.headD []
    match matchHeading heading_line with
    | none => none
    | some g =>
      let full_heading := trimChars g
      let name_part := trimChars
        (full_heading.takeWhile (fun c => !(c == '—' || c == '–')))
      let name := match linkMatch name_part with
        | some n => n
        | none => name_part
      let body := joinNl (partLines.tail.filter
        (fun l => !(trimChars l).isEmpty && !(trimChars l == ("---".data))))
      some (String.mk (name.map Char.toLower),
        ⟨String.mk name, String.mk full_heading, String.mk (trimChars body)⟩)
  else none

/-- The same parse without the dict collapse: one entry per matched
part, in report order. -/
def extract_entries_list (t : String) : List (String × MdEntry) :=
  (splitAtHeadings (splitOnNl t.data)).filterMap extract_one


/-- app.py:499-527 — `extract_entries`: the parsed entries as a Python
dict keyed by `name.lower()`, built in part order (later same-key
entries overwrite earlier ones). -/
def extract_entries (t : String) : List (String × MdEntry) :=
  (splitAtHeadings (splitOnNl t.data)).foldl
    (fun d g =>
      match extract_one g with
      | some ke => dictInsert d ke.1 ke.2
      | none => d) []

theorem dictGet_map_replace {κ α : Type} [DecidableEq κ] (k : κ) (v : α) :
    ∀ (d : List (κ × α)),
      dictGet (d.map (fun p => if p.1 = k then (k, v) else p)) k
        = if d.any (fun p => p.1 = k) then some v else none := by
  intro d
  induction d with
  | nil => rfl
  | cons p ps ih =>
    rw [List.map_cons, dictGet, ih, List.any_cons]
    by_cases hps : ps.any (fun p => p.1 = k)
    · rw [if_pos hps]
      simp [hps]
    · rw [if_neg hps]
      by_cases hp : p.1 = k
      · rw [if_pos hp]
        simp [hp, hps]
      · rw [if_neg hp]
        simp [hp, hps]

theorem dictGet_map_replace_ne {κ α : Type} [DecidableEq κ] (k k' : κ) (v : α)
    (hne : k' ≠ k) :
    ∀ (d : List (κ × α)),
      dictGet (d.map (fun p => if p.1 = k then (k, v) else p)) k' = dictGet d k' := by
  intro d
  induction d with
  | nil => rfl
  | cons p ps ih =>
    rw [List.map_cons, dictGet, ih, dictGet]
    by_cases hp : p.1 = k
    · rw [if_pos hp]
      have h1 : k ≠ k' := fun h => hne h.symm
      have h2 : p.1 ≠ k' := by rw [hp]; exact h1
      cases hrec : dictGet ps k' with
      | some w => rfl
      | none => simp [h1, h2]
    · rw [if_neg hp]

theorem dictGet_append_single {κ α : Type} [DecidableEq κ] (k k' : κ) (v : α) :
    ∀ (d : List (κ × α)),
      dictGet (d ++ [(k, v)]) k' = if k = k' then some v else dictGet d k' := by
  intro d
  induction d with
  | nil =>
    simp only [List.nil_append]
    rw [dictGet]
    by_cases h : k = k'
    · simp [dictGet, h]
    · simp [dictGet, h]
  | cons p ps ih =>
    rw [List.cons_append, dictGet, ih, dictGet]
    by_cases h : k = k' <;> simp [h]

theorem dictGet_dictInsert {κ α : Type} [DecidableEq κ] (d : List (κ × α)) (k k' : κ)
    (v : α) :
    dictGet (dictInsert d k v) k' = if k' = k then some v else dictGet d k' := by
  rw [dictInsert]
  by_cases hany : d.any (fun p => p.1 = k)
  · rw [if_pos hany]
    by_cases hk : k' = k
    · subst hk
      rw [dictGet_map_replace, if_pos hany, if_pos rfl]
    · rw [dictGet_map_replace_ne k k' v hk, if_neg hk]
  · rw [if_neg hany, dictGet_append_single]
    by_cases hk : k' = k
    · rw [if_pos hk, if_pos hk.symm]
    · rw [if_neg hk, if_neg (fun h => hk h.symm)]

theorem dictInsert_keys_nodup {κ α : Type} [DecidableEq κ] (d : List (κ × α)) (k : κ)
    (v : α) (h : (d.map Prod.fst).Nodup) :
    ((dictInsert d k v).map Prod.fst).Nodup := by
  rw [dictInsert]
  by_cases hany : d.any (fun p => p.1 = k)
  · rw [if_pos hany]
    have : (d.map (fun p => if p.1 = k then (k, v) else p)).map Prod.fst
        = d.map Prod.fst := by
      rw [List.map_map]
      apply List.map_congr_left
      intro p _
      by_cases hp : p.1 = k
      · simp [hp]
      · simp [hp]
    rw [this]
    exact h
  · rw [if_neg hany, List.map_append]
    rw [List.nodup_append]
    refine ⟨h, by simp, ?_⟩
    intro x hx hx'
    have hxk : x = k := by simpa using hx'
    subst hxk
    rcases List.mem_map.mp hx with ⟨p, hp, hpf⟩
    have : d.any (fun p => p.1 = x) = true :=
      List.any_eq_true.mpr ⟨p, hp, by simp [hpf]⟩
    exact hany (by simpa [hpf] using this)

theorem dictGet_foldl_insert {κ α : Type} [DecidableEq κ] :
    ∀ (l : List (κ × α)) (d : List (κ × α)) (k : κ),
      dictGet (l.foldl (fun d p => dictInsert d p.1 p.2) d) k
        = match l.reverse.find? (fun p => p.1 == k) with
          | some p => some p.2
          | none => dictGet d k := by
  intro l
  induction l with
  | nil => intro d k; simp
  | cons p ps ih =>
    intro d k
    rw [List.foldl_cons, ih, List.reverse_cons, List.find?_append]
    cases hrec : ps.reverse.find? (fun p => p.1 == k) with
    | some q => simp
    | none =>
      rw [dictGet_dictInsert]
      by_cases hk : k = p.1
      · simp [List.find?, hk]
      · have hpk : (p.1 == k) = false := beq_eq_false_iff_ne.mpr (fun h => hk h.symm)
        simp [List.find?, hk, hpk]

theorem foldl_extract_filterMap :
    ∀ (groups : List (List (List Char))) (d : List (String × MdEntry)),
      groups.foldl
        (fun d g =>
          match extract_one g with
          | some ke => dictInsert d ke.1 ke.2
          | none => d) d
      = (groups.filterMap extract_one).foldl (fun d q => dictInsert d q.1 q.2) d := by
  intro groups
  induction groups with
  | nil => intro d; rfl
  | cons g gs ih =>
    intro d
    rw [List.foldl_cons, List.filterMap_cons]
    cases hg : extract_one g with
    | none => rw [ih]
    | some ke => rw [List.foldl_cons, ih]

theorem foldl_insert_keys_nodup {κ α : Type} [DecidableEq κ] :
    ∀ (l : List (κ × α)) (d : List (κ × α)), (d.map Prod.fst).Nodup →
      ((l.foldl (fun d q => dictInsert d q.1 q.2) d).map Prod.fst).Nodup := by
  intro l
  induction l with
  | nil => intro d h; exact h
  | cons q qs ih =>
    intro d h
    rw [List.foldl_cons]
    exact ih (dictInsert d q.1 q.2) (dictInsert_keys_nodup d q.1 q.2 h)

/-- C10: entry extraction keys the entries dict by the lowercased bare
display name (markdown-link decoration stripped), so lookup returns the
LAST parsed entry with that case-insensitive name (general last-wins
characterisation), each report contributes at most one entry per
case-insensitive name (duplicate-free keys), and on a concrete report
whose two headings are `[Jane Doe](...)` and `JANE DOE` only the second
entry survives under the single key `"jane doe"`. -/
theorem C10_last_entry_wins :
    (∀ (t : String) (k : String),
      dictGet (extract_entries t) k
        = match (extract_entries_list t).reverse.find? (fun p => p.1 == k) with
          | some p => some p.2
          | none => none)
    ∧ (∀ t : String, ((extract_entries t).map Prod.fst).Nodup)
    ∧ extract_entries
        "### #1. [Jane Doe](https://x.org/p) — Lead, Org A\n- **Why:** first\n---\n### #2. JANE DOE — Lead, Org B\n- **Why:** second\n---"
      = [("jane doe",
          { name := "JANE DOE", heading := "JANE DOE — Lead, Org B",
            body := "- **Why:** second" })] := by
  refine ⟨?_, ?_, by decide⟩
  · intro t k
    rw [extract_entries, foldl_extract_filterMap, dictGet_foldl_insert,
      extract_entries_list]
    split <;> rename_i heq <;> rw [heq] <;> rfl
  · intro t
    rw [extract_entries, foldl_extract_filterMap]
    exact foldl_insert_keys_nodup _ [] (by simp)

/-- C5 witness: the general part of the threshold-filtering theorem
applied to a concrete score map. -/
theorem C5_threshold_filtering_witness :
    (top_items [(0, 9), (1, 7)] 8).Perm
      ([(0, 9), (1, 7)].filter (fun p => 8 ≤ p.2)) :=
  (C5_threshold_filtering.1 [(0, 9), (1, 7)] 8).1

/-- C7 witness: the reconciler theorem applied at concrete inputs —
the no-similarity conjunct at empty reports (its hypotheses discharged
vacuously) and the concrete `"jon smith"`/`"john smith"` conjunct. -/
theorem C7_reconciler_amended_witness :
    reconcile_overlap [] [] = ([], [])
    ∧ reconcile_overlap ["jon smith"] ["john smith"]
        = (["jon smith"], [("jon smith", "john smith")]) :=
  ⟨(C7_reconciler_amended [] []).2.2.2.2.1
      (fun g hg => absurd hg (List.not_mem_nil g))
      (fun k hk => absurd hk (List.not_mem_nil k)),
   (C7_reconciler_amended [] []).2.2.2.2.2⟩
